import Mathlib

/-!
Shallow embedding of src/Real.h (namespace Elements), a ULP-based
floating-point comparison extracted from the Google Test framework.

Machine unsigned integers of width w are modelled as natural numbers
below 2 ^ w; every C++ unsigned operation that can wrap carries an
explicit modulus 2 ^ w.  A floating-point value is represented by the
natural number whose binary digits are the IEEE-754 storage bits of
the value (sign bit on top, then exponent bits, then fraction bits).
-/

namespace Elements

/-- Constant DBL_DEFAULT_MAX_ULPS from src/Real.h line 90: the double
precision float default maximum unit in the last place. -/
def DBL_DEFAULT_MAX_ULPS : Nat := 10

/-- Function defaultMaxUlps from src/Real.h lines 111-119: both the
primary template and the double specialisation return
DBL_DEFAULT_MAX_ULPS. -/
def defaultMaxUlps : Nat := DBL_DEFAULT_MAX_ULPS

/-- Class template TypeWithSize from src/Real.h lines 95-109, modelled
as the bit width of the member type UInt for a given byte size.  The
primary template defines UInt as void, modelled as none; the only
specialisation present in the file is TypeWithSize of size 8, whose
UInt is unsigned long long, 64 bits wide. -/
def TypeWithSize_UInt (size : Nat) : Option Nat :=
  if size = 8 then some 64 else none

/-- Constant s_bitcount from src/Real.h line 160: the number of bits in
a raw floating type of the given byte size, 8 times sizeof. -/
def s_bitcount (size : Nat) : Nat := 8 * size

/-- Constant s_sign_bitmask from src/Real.h line 169: the value 1 cast
to Bits and shifted left by s_bitcount minus 1.  The parameter w is the
bit count of the type. -/
def s_sign_bitmask (w : Nat) : Nat := 1 <<< (w - 1)

/-- Bitwise complement of a w-bit unsigned value, the C++ tilde
operator at width w: every one of the low w bits is flipped. -/
def bitNotW (w x : Nat) : Nat := x ^^^ (2 ^ w - 1)

/-- Constant s_fraction_bitcount from src/Real.h line 163: the count of
significant digits of the mantissa given by the standard numeric-limits
facility, minus one; 52 for double, whose digit count is 53. -/
def s_fraction_bitcount (digits : Nat) : Nat := digits - 1

/-- Constant s_exponent_bitcount from src/Real.h line 166: the bit
count minus 1 minus the fraction bit count. -/
def s_exponent_bitcount (w digits : Nat) : Nat :=
  w - 1 - s_fraction_bitcount digits

/-- Constant s_fraction_bitmask from src/Real.h line 172: the all-ones
word shifted right by the exponent bit count plus 1. -/
def s_fraction_bitmask (w digits : Nat) : Nat :=
  (2 ^ w - 1) >>> (s_exponent_bitcount w digits + 1)

/-- Constant s_exponent_bitmask from src/Real.h line 175: the
complement of the union of the sign mask and the fraction mask. -/
def s_exponent_bitmask (w digits : Nat) : Nat :=
  bitNotW w (s_sign_bitmask w ||| s_fraction_bitmask w digits)

/-- Function FloatingPoint::signAndMagnitudeToBiased from src/Real.h
lines 226-234: when the sign bit of sam is set the result is the bitwise
complement of sam plus one in w-bit unsigned arithmetic, the wraparound
retained by the explicit modulus; otherwise it is the sign mask
bitwise-or sam. -/
def signAndMagnitudeToBiased (w sam : Nat) : Nat :=
  if s_sign_bitmask w &&& sam ≠ 0 then
    (bitNotW w sam + 1) % 2 ^ w
  else
    s_sign_bitmask w ||| sam

/-- C++ unsigned subtraction at width w: a minus b modulo 2 ^ w, for
operands below 2 ^ w. -/
def usubW (w a b : Nat) : Nat := (2 ^ w + a - b) % 2 ^ w

/-- Function FloatingPoint::distanceBetweenSignAndMagnitudeNumbers from
src/Real.h lines 238-242: both arguments are converted to the biased
representation and the smaller biased value is subtracted from the
larger one in unsigned arithmetic. -/
def distanceBetweenSignAndMagnitudeNumbers (w sam1 sam2 : Nat) : Nat :=
  let biased1 := signAndMagnitudeToBiased w sam1
  let biased2 := signAndMagnitudeToBiased w sam2
  if biased1 ≥ biased2 then usubW w biased1 biased2 else usubW w biased2 biased1

/-- Function isEqual from src/Real.h lines 254-265, at the level of the
bit patterns l_bits and r_bits that the source obtains by reinterpreting
the storage of its two floating arguments: true exactly when the
distance between the sign-and-magnitude numbers is at most max_ulps. -/
def isEqual (w max_ulps l_bits r_bits : Nat) : Bool :=
  decide (distanceBetweenSignAndMagnitudeNumbers w l_bits r_bits ≤ max_ulps)

/-!
IEEE-754 semantics of a bit pattern.  The following definitions are not
part of src/Real.h; they restate the standard binary interchange format
with eb exponent bits and fb fraction bits (eb = 11, fb = 52 for
binary64), so that claims about the numeric order of floating values
can be expressed.
-/

/-- Magnitude encoded by the low eb + fb bits m of a pattern, scaled by
the fixed positive factor 2 ^ (bias + fb - 1) where bias is
2 ^ (eb - 1) - 1, so that it is a natural number: with exponent field
e = m / 2 ^ fb and fraction field f = m % 2 ^ fb, a subnormal (e = 0)
has scaled magnitude f, and a pattern with e ≥ 1 has scaled magnitude
(2 ^ fb + f) * 2 ^ (e - 1). -/
def magN (fb m : Nat) : Nat :=
  if m / 2 ^ fb = 0 then m % 2 ^ fb
  else (2 ^ fb + m % 2 ^ fb) * 2 ^ (m / 2 ^ fb - 1)

/-- Numeric value of the w-bit pattern p (w = eb + fb + 1) under the
IEEE-754 interpretation, as a rational: the sign given by the top bit,
times the scaled magnitude of the low bits, divided by the scaling
factor 2 ^ (bias + fb - 1). -/
def val (eb fb p : Nat) : ℚ :=
  (if 2 ^ (eb + fb) ≤ p then (-1 : ℚ) else 1) * (magN fb (p % 2 ^ (eb + fb)) : ℚ)
    / 2 ^ (2 ^ (eb - 1) + fb - 2)

/-- A pattern is finite when its exponent field is not all ones. -/
def isFinite (eb fb p : Nat) : Prop :=
  (p % 2 ^ (eb + fb)) / 2 ^ fb < 2 ^ eb - 1

instance (eb fb p : Nat) : Decidable (isFinite eb fb p) :=
  inferInstanceAs (Decidable (_ < _))

/-- Bit pattern of the double precision value positive zero. -/
def plusZeroBits : Nat := 0

/-- Bit pattern of the double precision value negative zero: only the
sign bit is set. -/
def minusZeroBits : Nat := 2 ^ 63

/-- Bit pattern of the double precision value 1.0: sign 0, exponent
field 1023, fraction 0. -/
def oneBits : Nat := 1023 * 2 ^ 52

/-- Bit pattern of the smallest double strictly greater than 1.0: the
pattern of 1.0 with the lowest fraction bit set, one unit in the last
place away.  Its minimality is proved in the theorem about adjacent
values, from the strict monotonicity of the valuation. -/
def oneNextBits : Nat := 1023 * 2 ^ 52 + 1

/-! ### Helper lemmas on the bit manipulations -/

theorem s_sign_bitmask_eq (w : Nat) : s_sign_bitmask w = 2 ^ (w - 1) := by
  simp [s_sign_bitmask, Nat.shiftLeft_eq]

theorem land_sign_ne_zero_iff {w sam : Nat} (hw : 0 < w) (h : sam < 2 ^ w) :
    2 ^ (w - 1) &&& sam ≠ 0 ↔ 2 ^ (w - 1) ≤ sam := by
  rw [Nat.two_pow_and]
  constructor
  · intro hne
    rcases hb : sam.testBit (w - 1) with hf | ht
    · simp [hb] at hne
    · exact Nat.testBit_implies_ge hb
  · intro hle
    have hbit : sam.testBit (w - 1) = true := by
      rw [Nat.testBit_to_div_mod]
      have h1 : 1 ≤ sam / 2 ^ (w - 1) := (Nat.one_le_div_iff (Nat.pow_pos (by norm_num))).2 hle
      have h2 : sam / 2 ^ (w - 1) < 2 := by
        rw [Nat.div_lt_iff_lt_mul (Nat.pow_pos (by norm_num))]
        calc sam < 2 ^ w := h
        _ = 2 ^ (w - 1) * 2 := by
            rw [← Nat.pow_succ]
            congr 1
            omega
        _ = 2 * 2 ^ (w - 1) := by ring
      have : sam / 2 ^ (w - 1) = 1 := by omega
      simp [this]
    simp [hbit]

theorem land_sign_eq_zero_iff {w sam : Nat} (hw : 0 < w) (h : sam < 2 ^ w) :
    2 ^ (w - 1) &&& sam = 0 ↔ sam < 2 ^ (w - 1) := by
  rcases Nat.lt_or_ge sam (2 ^ (w - 1)) with hlt | hge
  · constructor
    · intro _; exact hlt
    · intro _
      by_contra hne
      exact absurd ((land_sign_ne_zero_iff hw h).1 hne) (by omega)
  · constructor
    · intro hz
      exact absurd hz ((land_sign_ne_zero_iff hw h).2 hge)
    · intro hlt; omega

theorem bitNotW_eq {w sam : Nat} (h : sam < 2 ^ w) :
    bitNotW w sam = 2 ^ w - 1 - sam := by
  unfold bitNotW
  apply Nat.eq_of_testBit_eq
  intro i
  rw [Nat.testBit_xor, Nat.testBit_two_pow_sub_one]
  have hsub : 2 ^ w - 1 - sam = 2 ^ w - (sam + 1) := by omega
  rw [hsub, Nat.testBit_two_pow_sub_succ h]
  rcases Nat.lt_or_ge i w with hi | hi
  · simp [hi]
  · have : sam.testBit i = false :=
      Nat.testBit_lt_two_pow (lt_of_lt_of_le h (Nat.pow_le_pow_right (by norm_num) hi))
    simp [this, Nat.not_lt.2 hi]

theorem lor_two_pow_eq_add {n sam : Nat} (h : sam < 2 ^ n) :
    2 ^ n ||| sam = 2 ^ n + sam := by
  apply Nat.eq_of_testBit_eq
  intro i
  rw [Nat.testBit_lor]
  have hadd : 2 ^ n + sam = 2 ^ n * 1 + sam := by ring
  rw [hadd, Nat.testBit_mul_pow_two_add 1 h]
  rcases Nat.lt_or_ge i n with hi | hi
  · simp [hi, Nat.testBit_two_pow, (Nat.ne_of_lt hi).symm]
  · have hs : sam.testBit i = false :=
      Nat.testBit_lt_two_pow (lt_of_lt_of_le h (Nat.pow_le_pow_right (by norm_num) hi))
    have h1 : Nat.testBit 1 (i - n) = decide (i - n = 0) := by
      rcases eq_or_ne (i - n) 0 with hz | hz
      · simp [hz]
      · rcases Nat.exists_eq_succ_of_ne_zero hz with ⟨k, hk⟩
        have ht : Nat.testBit 1 (k + 1) = false :=
          Nat.testBit_lt_two_pow (Nat.one_lt_two_pow (by omega))
        simp [hk, ht, hz]
    rw [hs, h1, Nat.testBit_two_pow]
    simp [Nat.not_lt.2 hi]
    omega

/-- Arithmetic description of the biased mapping: a pattern with the
sign bit set maps to 2 ^ w minus the pattern, and one with the sign bit
clear maps to 2 ^ (w - 1) plus the pattern. -/
theorem signAndMagnitudeToBiased_eq {w sam : Nat} (hw : 0 < w) (h : sam < 2 ^ w) :
    signAndMagnitudeToBiased w sam =
      if 2 ^ (w - 1) ≤ sam then 2 ^ w - sam else 2 ^ (w - 1) + sam := by
  unfold signAndMagnitudeToBiased
  rw [s_sign_bitmask_eq]
  rcases Nat.lt_or_ge sam (2 ^ (w - 1)) with hlt | hge
  · rw [if_neg (by rw [land_sign_ne_zero_iff hw h]; omega), if_neg (by omega)]
    exact lor_two_pow_eq_add hlt
  · rw [if_pos ((land_sign_ne_zero_iff hw h).2 hge), if_pos hge, bitNotW_eq h]
    have hpos : 0 < sam := lt_of_lt_of_le (Nat.pow_pos (by norm_num)) hge
    have : 2 ^ w - 1 - sam + 1 = 2 ^ w - sam := by omega
    rw [this, Nat.mod_eq_of_lt (by omega)]

theorem usubW_eq {w a b : Nat} (hb : b ≤ a) (ha : a < 2 ^ w) :
    usubW w a b = a - b := by
  unfold usubW
  have h1 : 2 ^ w + a - b = 2 ^ w + (a - b) := by omega
  rw [h1, Nat.add_mod_left, Nat.mod_eq_of_lt (by omega)]

theorem signAndMagnitudeToBiased_lt {w sam : Nat} (hw : 0 < w) (h : sam < 2 ^ w) :
    signAndMagnitudeToBiased w sam < 2 ^ w := by
  rw [signAndMagnitudeToBiased_eq hw h]
  have hsplit : 2 ^ w = 2 ^ (w - 1) * 2 := by
    rw [← Nat.pow_succ]
    congr 1
    omega
  rcases Nat.lt_or_ge sam (2 ^ (w - 1)) with hlt | hge
  · rw [if_neg (by omega)]
    omega
  · rw [if_pos hge]
    have hpos : 0 < sam := lt_of_lt_of_le (Nat.pow_pos (by norm_num)) hge
    omega

/-- The distance equals the exact difference of the larger and the
smaller biased value, with no wraparound. -/
theorem distance_eq_sub {w a b : Nat} (hw : 0 < w) (ha : a < 2 ^ w) (hb : b < 2 ^ w) :
    distanceBetweenSignAndMagnitudeNumbers w a b =
      max (signAndMagnitudeToBiased w a) (signAndMagnitudeToBiased w b) -
        min (signAndMagnitudeToBiased w a) (signAndMagnitudeToBiased w b) := by
  unfold distanceBetweenSignAndMagnitudeNumbers
  have h1 := signAndMagnitudeToBiased_lt hw ha
  have h2 := signAndMagnitudeToBiased_lt hw hb
  rcases Nat.lt_or_ge (signAndMagnitudeToBiased w a) (signAndMagnitudeToBiased w b) with hlt | hge
  · rw [if_neg (by omega), usubW_eq (by omega) h2]
    omega
  · rw [if_pos hge, usubW_eq hge h1]
    omega

/-! ### Helper lemmas on the IEEE-754 valuation -/

theorem magN_strictMono {fb m1 m2 : Nat} (h : m1 < m2) : magN fb m1 < magN fb m2 := by
  unfold magN
  have hfb : 0 < 2 ^ fb := Nat.pow_pos (by norm_num)
  obtain ⟨e1, f1, he1, hf1a, hf1, hm1⟩ :
      ∃ e f, m1 / 2 ^ fb = e ∧ m1 % 2 ^ fb = f ∧ f < 2 ^ fb ∧ m1 = 2 ^ fb * e + f :=
    ⟨m1 / 2 ^ fb, m1 % 2 ^ fb, rfl, rfl, Nat.mod_lt _ hfb, (Nat.div_add_mod m1 (2 ^ fb)).symm⟩
  obtain ⟨e2, f2, he2, hf2a, hf2, hm2⟩ :
      ∃ e f, m2 / 2 ^ fb = e ∧ m2 % 2 ^ fb = f ∧ f < 2 ^ fb ∧ m2 = 2 ^ fb * e + f :=
    ⟨m2 / 2 ^ fb, m2 % 2 ^ fb, rfl, rfl, Nat.mod_lt _ hfb, (Nat.div_add_mod m2 (2 ^ fb)).symm⟩
  rw [he1, he2, hf1a, hf2a]
  rcases eq_or_ne e1 e2 with heq | hne
  · -- same exponent field, so the fraction strictly grows
    subst heq
    have hflt : f1 < f2 := by omega
    rcases eq_or_ne e1 0 with hz | hz
    · rw [if_pos hz, if_pos hz]
      exact hflt
    · rw [if_neg hz, if_neg hz]
      exact (Nat.mul_lt_mul_right (Nat.pow_pos (by norm_num))).2 (by omega)
  · -- the exponent field strictly grows
    have helt : e1 < e2 := by
      rcases Nat.lt_or_ge e1 e2 with hlt | hge
      · exact hlt
      · exfalso
        have : 2 ^ fb * e2 + f2 ≤ 2 ^ fb * e1 + f1 := by
          have hmul : 2 ^ fb * e2 ≤ 2 ^ fb * e1 := Nat.mul_le_mul_left _ hge
          rcases eq_or_ne e1 e2 with h1 | h1
          · exact absurd h1 hne
          · have : e2 < e1 := by omega
            have : 2 ^ fb * (e2 + 1) ≤ 2 ^ fb * e1 := Nat.mul_le_mul_left _ (by omega)
            have h2 : 2 ^ fb * e2 + 2 ^ fb ≤ 2 ^ fb * e1 := by
              calc 2 ^ fb * e2 + 2 ^ fb = 2 ^ fb * (e2 + 1) := by ring
              _ ≤ 2 ^ fb * e1 := this
            omega
        omega
    have hz2 : e2 ≠ 0 := by omega
    rw [if_neg hz2]
    have hbig : 2 ^ fb * 2 ^ e1 ≤ (2 ^ fb + f2) * 2 ^ (e2 - 1) := by
      calc 2 ^ fb * 2 ^ e1 ≤ 2 ^ fb * 2 ^ (e2 - 1) :=
            Nat.mul_le_mul_left _ (Nat.pow_le_pow_right (by norm_num) (by omega))
      _ ≤ (2 ^ fb + f2) * 2 ^ (e2 - 1) := Nat.mul_le_mul_right _ (by omega)
    rcases eq_or_ne e1 0 with hz1 | hz1
    · rw [if_pos hz1]
      calc f1 < 2 ^ fb := hf1
      _ ≤ 2 ^ fb * 2 ^ e1 := Nat.le_mul_of_pos_right _ (Nat.pow_pos (by norm_num))
      _ ≤ _ := hbig
    · rw [if_neg hz1]
      calc (2 ^ fb + f1) * 2 ^ (e1 - 1)
            < (2 ^ fb * 2) * 2 ^ (e1 - 1) :=
              (Nat.mul_lt_mul_right (Nat.pow_pos (by norm_num))).2 (by omega)
      _ = 2 ^ fb * 2 ^ (e1 - 1 + 1) := by rw [Nat.pow_succ]; ring
      _ = 2 ^ fb * 2 ^ e1 := by
            have he : e1 - 1 + 1 = e1 := by omega
            rw [he]
      _ ≤ _ := hbig

theorem magN_zero (fb : Nat) : magN fb 0 = 0 := by
  simp [magN]

theorem magN_eq_zero_iff {fb m : Nat} : magN fb m = 0 ↔ m = 0 := by
  constructor
  · intro h
    by_contra hne
    have : magN fb 0 < magN fb m := magN_strictMono (by omega)
    rw [magN_zero, h] at this
    omega
  · intro h
    rw [h, magN_zero]

theorem mod_eq_sub_of_ge {N x : Nat} (h1 : N ≤ x) (h2 : x < 2 * N) : x % N = x - N := by
  have hN : 0 < N := by omega
  rw [Nat.mod_eq_sub_mod h1, Nat.mod_eq_of_lt (by omega)]

/-- Order correspondence between the biased mapping and the IEEE-754
valuation: one biased value is at most the other exactly when the
corresponding numeric values compare the same way. -/
theorem biased_le_iff_val_le {eb fb p q : Nat} (heb : 0 < eb)
    (hp : p < 2 ^ (eb + fb + 1)) (hq : q < 2 ^ (eb + fb + 1)) :
    (signAndMagnitudeToBiased (eb + fb + 1) q ≤ signAndMagnitudeToBiased (eb + fb + 1) p
      ↔ val eb fb q ≤ val eb fb p) := by
  have hsm : StrictMono (magN fb) := fun a b hab => magN_strictMono hab
  have hw : 0 < eb + fb + 1 := by omega
  have hw1 : eb + fb + 1 - 1 = eb + fb := by omega
  have hNpos : 0 < 2 ^ (eb + fb) := Nat.pow_pos (by norm_num)
  have h2N : 2 ^ (eb + fb + 1) = 2 * 2 ^ (eb + fb) := by rw [Nat.pow_succ]; ring
  have hD : (0 : ℚ) < 2 ^ (2 ^ (eb - 1) + fb - 2) := by positivity
  rw [signAndMagnitudeToBiased_eq hw hp, signAndMagnitudeToBiased_eq hw hq, hw1]
  unfold val
  rw [div_le_div_iff_of_pos_right hD]
  rcases Nat.lt_or_ge p (2 ^ (eb + fb)) with hps | hps <;>
    rcases Nat.lt_or_ge q (2 ^ (eb + fb)) with hqs | hqs
  · -- both patterns carry the plus sign
    have hp' : ¬ 2 ^ (eb + fb) ≤ p := by omega
    have hq' : ¬ 2 ^ (eb + fb) ≤ q := by omega
    simp only [if_neg hq', if_neg hp', Nat.mod_eq_of_lt hps, Nat.mod_eq_of_lt hqs,
      one_mul, Nat.cast_le]
    constructor
    · intro h
      exact hsm.le_iff_le.2 (by omega)
    · intro h
      have := hsm.le_iff_le.1 h
      omega
  · -- p carries plus and q carries minus, so both sides hold
    have hp' : ¬ 2 ^ (eb + fb) ≤ p := by omega
    have hq' : 2 ^ (eb + fb) ≤ q := hqs
    simp only [if_pos hq', if_neg hp']
    apply iff_of_true
    · omega
    · calc (-1 : ℚ) * (magN fb (q % 2 ^ (eb + fb)) : ℚ) ≤ 0 := by
            rw [neg_one_mul]
            exact neg_nonpos.2 (Nat.cast_nonneg _)
      _ ≤ 1 * (magN fb (p % 2 ^ (eb + fb)) : ℚ) := by
            rw [one_mul]
            exact Nat.cast_nonneg _
  · -- p carries minus and q carries plus: each side holds only for the two zeros
    have hp' : 2 ^ (eb + fb) ≤ p := hps
    have hq' : ¬ 2 ^ (eb + fb) ≤ q := by omega
    simp only [if_neg hq', if_pos hp', Nat.mod_eq_of_lt hqs,
      mod_eq_sub_of_ge hps (by omega)]
    constructor
    · intro h
      have hq0 : q = 0 := by omega
      have hp0 : p = 2 ^ (eb + fb) := by omega
      rw [hq0, hp0]
      simp [magN_zero]
    · intro h
      have h1 : (0 : ℚ) ≤ (magN fb q : ℚ) := Nat.cast_nonneg _
      have h2 : (-1 : ℚ) * (magN fb (p - 2 ^ (eb + fb)) : ℚ) ≤ 0 := by
        rw [neg_one_mul]
        exact neg_nonpos.2 (Nat.cast_nonneg _)
      rw [one_mul] at h
      have hzq : (magN fb q : ℚ) = 0 := le_antisymm (le_trans h h2) h1
      have hzp : (magN fb (p - 2 ^ (eb + fb)) : ℚ) = 0 := by
        have h3 : (0 : ℚ) ≤ (magN fb (p - 2 ^ (eb + fb)) : ℚ) := Nat.cast_nonneg _
        have h4 : (magN fb (p - 2 ^ (eb + fb)) : ℚ) ≤ 0 := by
          rw [neg_one_mul] at h
          linarith
        exact le_antisymm h4 h3
      have hq0 : q = 0 := magN_eq_zero_iff.1 (Nat.cast_eq_zero.1 hzq)
      have hp0 : p - 2 ^ (eb + fb) = 0 := magN_eq_zero_iff.1 (Nat.cast_eq_zero.1 hzp)
      omega
  · -- both patterns carry the minus sign
    have hp' : 2 ^ (eb + fb) ≤ p := hps
    have hq' : 2 ^ (eb + fb) ≤ q := hqs
    simp only [if_pos hq', if_pos hp', mod_eq_sub_of_ge hps (by omega),
      mod_eq_sub_of_ge hqs (by omega), neg_one_mul, neg_le_neg_iff, Nat.cast_le]
    constructor
    · intro h
      exact hsm.le_iff_le.2 (by omega)
    · intro h
      have := hsm.le_iff_le.1 h
      omega

/-! ### Claims -/

/-- C1.  The claim states that isEqual can be instantiated for 4-byte
floats as well as 8-byte doubles.  In src/Real.h only the size-8
specialisation of TypeWithSize exists; for size 4 the primary template
applies and UInt is void, so the instantiation of isEqual or of
FloatingPoint at a 4-byte float fails to compile, contradicting the
header comments (lines 140-149) that name float a supported raw type.
This theorem evaluates the embedded TypeWithSize at the failing width
4 and at the sole working width 8. -/
theorem typeWithSize_four_is_void :
    TypeWithSize_UInt 4 = none ∧ TypeWithSize_UInt 8 = some 64 := by decide

/-- C2.  isEqual returns true exactly when the distance between the
biased forms of the two operands is at most max_ulps, the distance
being the larger biased value minus the smaller one, here written with
exact natural subtraction in each guarded branch, so the unsigned
subtraction never underflows. -/
theorem isEqual_iff_dist_le {w max_ulps l r : Nat} (hw : 0 < w)
    (hl : l < 2 ^ w) (hr : r < 2 ^ w) :
    isEqual w max_ulps l r = true ↔
      (if signAndMagnitudeToBiased w r ≤ signAndMagnitudeToBiased w l
        then signAndMagnitudeToBiased w l - signAndMagnitudeToBiased w r
        else signAndMagnitudeToBiased w r - signAndMagnitudeToBiased w l) ≤ max_ulps := by
  rw [isEqual, decide_eq_true_iff, distance_eq_sub hw hl hr]
  rcases Nat.lt_or_ge (signAndMagnitudeToBiased w l) (signAndMagnitudeToBiased w r) with hlt | hge
  · rw [if_neg (by omega)]
    constructor <;> intro h <;> omega
  · rw [if_pos hge]
    constructor <;> intro h <;> omega

/-- Witness for C2 at width 8 with operands 3 and 130 and tolerance 100. -/
theorem isEqual_iff_dist_le_check :
    (0 : Nat) < 8 ∧ (3 : Nat) < 2 ^ 8 ∧ (130 : Nat) < 2 ^ 8 ∧
      (isEqual 8 100 3 130 = true ↔
        (if signAndMagnitudeToBiased 8 130 ≤ signAndMagnitudeToBiased 8 3
          then signAndMagnitudeToBiased 8 3 - signAndMagnitudeToBiased 8 130
          else signAndMagnitudeToBiased 8 130 - signAndMagnitudeToBiased 8 3) ≤ 100) :=
  ⟨by decide, by decide, by decide,
    @isEqual_iff_dist_le 8 100 3 130 (by decide) (by decide) (by decide)⟩

/-- C3.  On a w-bit pattern, signAndMagnitudeToBiased returns the
two's-complement negation of the pattern (bitwise complement, then plus
one, with wraparound in the w-bit width, equal to 2 ^ w minus the
pattern modulo 2 ^ w) when the sign bit is set, and the pattern with
the sign-mask bit forced on (equal to 2 ^ (w - 1) plus the pattern)
when the sign bit is clear. -/
theorem signAndMagnitudeToBiased_branches {w sam : Nat} (hw : 0 < w) (h : sam < 2 ^ w) :
    (2 ^ (w - 1) &&& sam ≠ 0 →
        signAndMagnitudeToBiased w sam = ((sam ^^^ (2 ^ w - 1)) + 1) % 2 ^ w
      ∧ signAndMagnitudeToBiased w sam = (2 ^ w - sam) % 2 ^ w)
    ∧ (2 ^ (w - 1) &&& sam = 0 →
        signAndMagnitudeToBiased w sam = (2 ^ (w - 1) ||| sam)
      ∧ signAndMagnitudeToBiased w sam = 2 ^ (w - 1) + sam) := by
  have hchar := signAndMagnitudeToBiased_eq hw h
  constructor
  · intro hset
    have hge : 2 ^ (w - 1) ≤ sam := (land_sign_ne_zero_iff hw h).1 hset
    have hpos : 0 < sam := lt_of_lt_of_le (Nat.pow_pos (by norm_num)) hge
    rw [hchar, if_pos hge]
    constructor
    · rw [show (sam ^^^ (2 ^ w - 1)) = bitNotW w sam from rfl, bitNotW_eq h]
      have he : 2 ^ w - 1 - sam + 1 = 2 ^ w - sam := by omega
      rw [he, Nat.mod_eq_of_lt (by omega)]
    · rw [Nat.mod_eq_of_lt (by omega)]
  · intro hclear
    have hlt : sam < 2 ^ (w - 1) := (land_sign_eq_zero_iff hw h).1 hclear
    rw [hchar, if_neg (by omega)]
    constructor
    · exact (lor_two_pow_eq_add hlt).symm
    · rfl

/-- Witness for C3 at width 8, on the negative pattern 200 and the
positive pattern 5. -/
theorem signAndMagnitudeToBiased_branches_check :
    (0 : Nat) < 8 ∧ (200 : Nat) < 2 ^ 8 ∧ (5 : Nat) < 2 ^ 8 ∧
      signAndMagnitudeToBiased 8 200 = (2 ^ 8 - 200) % 2 ^ 8 ∧
      signAndMagnitudeToBiased 8 5 = 2 ^ 7 + 5 :=
  ⟨by decide, by decide, by decide,
    ((@signAndMagnitudeToBiased_branches 8 200 (by decide) (by decide)).1
      (by decide)).2,
    ((@signAndMagnitudeToBiased_branches 8 5 (by decide) (by decide)).2
      (by decide)).2⟩

/-- C4.  The biasing is order-preserving on finite patterns: one biased
value is at least the other exactly when the IEEE-754 values compare
the same way; equal values give equal biased values; and the patterns
of minus zero (2 ^ (eb + fb)) and plus zero (0) map to the same biased
constant. -/
theorem biased_order_iff_val_order {eb fb p q : Nat} (heb : 0 < eb)
    (hp : p < 2 ^ (eb + fb + 1)) (hq : q < 2 ^ (eb + fb + 1))
    (hfp : isFinite eb fb p) (hfq : isFinite eb fb q) :
    (signAndMagnitudeToBiased (eb + fb + 1) p ≥ signAndMagnitudeToBiased (eb + fb + 1) q
        ↔ val eb fb p ≥ val eb fb q)
    ∧ (val eb fb p = val eb fb q →
        signAndMagnitudeToBiased (eb + fb + 1) p = signAndMagnitudeToBiased (eb + fb + 1) q)
    ∧ signAndMagnitudeToBiased (eb + fb + 1) (2 ^ (eb + fb)) =
        signAndMagnitudeToBiased (eb + fb + 1) 0 := by
  have hN : (0 : Nat) < 2 ^ (eb + fb) := Nat.pow_pos (by norm_num)
  have h2N : 2 ^ (eb + fb + 1) = 2 * 2 ^ (eb + fb) := by
    rw [Nat.pow_succ]
    ring
  refine ⟨biased_le_iff_val_le heb hp hq, ?_, ?_⟩
  · intro hv
    have h1 := (biased_le_iff_val_le heb hp hq).2 (le_of_eq hv.symm)
    have h2 := (biased_le_iff_val_le heb hq hp).2 (le_of_eq hv)
    omega
  · have hw : 0 < eb + fb + 1 := by omega
    have hw1 : eb + fb + 1 - 1 = eb + fb := by omega
    have e1 : signAndMagnitudeToBiased (eb + fb + 1) (2 ^ (eb + fb)) = 2 ^ (eb + fb) := by
      rw [signAndMagnitudeToBiased_eq hw (by omega), hw1, if_pos (le_refl _)]
      omega
    have e2 : signAndMagnitudeToBiased (eb + fb + 1) 0 = 2 ^ (eb + fb) := by
      rw [signAndMagnitudeToBiased_eq hw (by omega), hw1, if_neg (by omega)]
      omega
    rw [e1, e2]

/-- Witness for C4 with 2 exponent bits and 1 fraction bit (width 4),
on the finite patterns 1 and 0. -/
theorem biased_order_iff_val_order_check :
    (0 : Nat) < 2 ∧ (1 : Nat) < 2 ^ (2 + 1 + 1) ∧ (0 : Nat) < 2 ^ (2 + 1 + 1) ∧
      isFinite 2 1 1 ∧ isFinite 2 1 0 ∧
      (signAndMagnitudeToBiased 4 1 ≥ signAndMagnitudeToBiased 4 0 ↔
        val 2 1 1 ≥ val 2 1 0) :=
  ⟨by decide, by decide, by decide, by decide, by decide,
    (@biased_order_iff_val_order 2 1 1 0
      (by decide) (by decide) (by decide) (by decide) (by decide)).1⟩

/-- C6.  For double precision, isEqual on the patterns of positive and
negative zero returns true at every tolerance, including zero, because
the biased forms of the two zero patterns coincide. -/
theorem isEqual_signed_zeros :
    (∀ max_ulps : Nat, isEqual 64 max_ulps plusZeroBits minusZeroBits = true)
    ∧ signAndMagnitudeToBiased 64 minusZeroBits = signAndMagnitudeToBiased 64 plusZeroBits := by
  constructor
  · intro max_ulps
    have h : distanceBetweenSignAndMagnitudeNumbers 64 plusZeroBits minusZeroBits = 0 := by
      decide
    rw [isEqual, h, decide_eq_true_iff]
    omega
  · decide

/-- C7.  Tolerance widening is monotonic: an isEqual result of true is
preserved when the tolerance grows. -/
theorem isEqual_tolerance_mono {w n m a b : Nat} (hnm : n ≤ m)
    (h : isEqual w n a b = true) : isEqual w m a b = true := by
  rw [isEqual, decide_eq_true_iff] at h ⊢
  omega

/-- Witness for C7 at width 64, operands 5 and 5, tolerances 0 and 3. -/
theorem isEqual_tolerance_mono_check :
    (0 : Nat) ≤ 3 ∧ isEqual 64 0 5 5 = true ∧ isEqual 64 3 5 5 = true :=
  ⟨by decide, by decide,
    @isEqual_tolerance_mono 64 0 3 5 5 (by decide) (by decide)⟩

/-- C8.  isEqual is symmetric in its two bit-pattern arguments at every
width and tolerance. -/
theorem isEqual_symm (w n a b : Nat) : isEqual w n a b = isEqual w n b a := by
  have hdist : distanceBetweenSignAndMagnitudeNumbers w a b
      = distanceBetweenSignAndMagnitudeNumbers w b a := by
    unfold distanceBetweenSignAndMagnitudeNumbers
    rcases Nat.lt_trichotomy (signAndMagnitudeToBiased w a) (signAndMagnitudeToBiased w b)
      with h | h | h
    · have h1 : ¬ signAndMagnitudeToBiased w a ≥ signAndMagnitudeToBiased w b := by omega
      have h2 : signAndMagnitudeToBiased w b ≥ signAndMagnitudeToBiased w a := by omega
      rw [if_neg h1, if_pos h2]
    · rw [h]
    · have h1 : signAndMagnitudeToBiased w a ≥ signAndMagnitudeToBiased w b := by omega
      have h2 : ¬ signAndMagnitudeToBiased w b ≥ signAndMagnitudeToBiased w a := by omega
      rw [if_pos h1, if_neg h2]
  rw [isEqual, isEqual, hdist]

set_option maxRecDepth 10000 in
/-- C9.  For double precision the pattern one ULP above 1.0 compares
unequal to 1.0 at tolerance 0 and equal at tolerance 1; their bit
distance is exactly 1; the valuation of the 1.0 pattern is 1; and no
64-bit pattern has a value strictly between the values of the two
patterns, so the second pattern is the smallest representable double
strictly greater than 1.0. -/
theorem isEqual_adjacent_to_one :
    isEqual 64 0 oneBits oneNextBits = false
    ∧ isEqual 64 1 oneBits oneNextBits = true
    ∧ distanceBetweenSignAndMagnitudeNumbers 64 oneBits oneNextBits = 1
    ∧ val 11 52 oneBits = 1
    ∧ (∀ p : Nat, 2 ^ 64 ≤ p ∨ val 11 52 p ≤ val 11 52 oneBits ∨
        val 11 52 oneNextBits ≤ val 11 52 p) := by
  refine ⟨by decide, by decide, by decide, by norm_num [val, magN, oneBits], ?_⟩
  intro p
  rcases Nat.lt_or_ge p (2 ^ 64) with hp | hp
  swap
  · exact Or.inl hp
  right
  by_cases hv : val 11 52 p ≤ val 11 52 oneBits
  · exact Or.inl hv
  right
  have hlt : val 11 52 oneBits < val 11 52 p := not_le.1 hv
  have heb : (0 : Nat) < 11 := by norm_num
  have hw : (0 : Nat) < 64 := by norm_num
  have h1 : oneBits < 2 ^ 64 := by norm_num [oneBits]
  have h1' : oneNextBits < 2 ^ 64 := by norm_num [oneNextBits]
  have hltb : ¬ signAndMagnitudeToBiased 64 p ≤ signAndMagnitudeToBiased 64 oneBits := by
    intro hc
    exact (not_le.2 hlt)
      ((@biased_le_iff_val_le 11 52 oneBits p heb h1 hp).1 hc)
  have hcone : signAndMagnitudeToBiased 64 oneBits = 2 ^ 63 + oneBits := by decide
  have hcnext : signAndMagnitudeToBiased 64 oneNextBits = 2 ^ 63 + oneNextBits := by decide
  have honeub : oneBits < 2 ^ 63 := by norm_num [oneBits]
  have hnexteq : oneNextBits = oneBits + 1 := rfl
  rcases Nat.lt_or_ge p (2 ^ 63) with hps | hps
  · -- p has the sign bit clear
    have hcp : signAndMagnitudeToBiased 64 p = 2 ^ 63 + p := by
      rw [signAndMagnitudeToBiased_eq hw hp, if_neg (show ¬ 2 ^ (64 - 1) ≤ p by omega)]
    have hple : signAndMagnitudeToBiased 64 oneNextBits ≤ signAndMagnitudeToBiased 64 p := by
      rw [hcone, hcp] at hltb
      rw [hcp, hcnext]
      omega
    exact (@biased_le_iff_val_le 11 52 p oneNextBits heb hp h1').1 hple
  · -- p has the sign bit set, so its biased form is at most 2 ^ 63: contradiction
    exfalso
    apply hltb
    rw [hcone, signAndMagnitudeToBiased_eq hw hp, if_pos (show 2 ^ (64 - 1) ≤ p by omega)]
    omega

/-- C10.  The distance is zero exactly for identical patterns or for
the pair of the plus-zero and minus-zero patterns; the biased mapping
sends both zero patterns, and only them, to the constant 2 ^ (w - 1). -/
theorem distance_zero_iff {w a b : Nat} (hw : 0 < w) (ha : a < 2 ^ w) (hb : b < 2 ^ w) :
    (distanceBetweenSignAndMagnitudeNumbers w a b = 0 ↔
      a = b ∨ (a = 0 ∧ b = 2 ^ (w - 1)) ∨ (a = 2 ^ (w - 1) ∧ b = 0))
    ∧ signAndMagnitudeToBiased w 0 = 2 ^ (w - 1)
    ∧ signAndMagnitudeToBiased w (2 ^ (w - 1)) = 2 ^ (w - 1) := by
  have h2 : 2 ^ w = 2 * 2 ^ (w - 1) := by
    have he : w = w - 1 + 1 := by omega
    calc 2 ^ w = 2 ^ (w - 1 + 1) := by rw [← he]
    _ = 2 ^ (w - 1) * 2 := Nat.pow_succ 2 (w - 1)
    _ = 2 * 2 ^ (w - 1) := by ring
  have hone : (0 : Nat) < 2 ^ (w - 1) := Nat.pow_pos (by norm_num)
  have hz : signAndMagnitudeToBiased w 0 = 2 ^ (w - 1) := by
    rw [signAndMagnitudeToBiased_eq hw (by omega), if_neg (by omega)]
    omega
  have hmz : signAndMagnitudeToBiased w (2 ^ (w - 1)) = 2 ^ (w - 1) := by
    rw [signAndMagnitudeToBiased_eq hw (by omega), if_pos (le_refl _)]
    omega
  refine ⟨?_, hz, hmz⟩
  rw [distance_eq_sub hw ha hb]
  have hchar_a := signAndMagnitudeToBiased_eq hw ha
  have hchar_b := signAndMagnitudeToBiased_eq hw hb
  constructor
  · intro h
    have heq : signAndMagnitudeToBiased w a = signAndMagnitudeToBiased w b := by omega
    rw [hchar_a, hchar_b] at heq
    rcases Nat.lt_or_ge a (2 ^ (w - 1)) with has | has <;>
      rcases Nat.lt_or_ge b (2 ^ (w - 1)) with hbs | hbs
    · rw [if_neg (by omega), if_neg (by omega)] at heq
      omega
    · rw [if_neg (by omega), if_pos hbs] at heq
      omega
    · rw [if_pos has, if_neg (by omega)] at heq
      omega
    · rw [if_pos has, if_pos hbs] at heq
      omega
  · intro h
    have heq : signAndMagnitudeToBiased w a = signAndMagnitudeToBiased w b := by
      rcases h with h | ⟨ha1, hb1⟩ | ⟨ha1, hb1⟩
      · rw [h]
      · rw [ha1, hb1, hz, hmz]
      · rw [ha1, hb1, hz, hmz]
    omega

/-- Witness for C10 at width 8 on the minus-zero pattern 128 and the
plus-zero pattern 0. -/
theorem distance_zero_iff_check :
    (0 : Nat) < 8 ∧ (128 : Nat) < 2 ^ 8 ∧ (0 : Nat) < 2 ^ 8 ∧
      (distanceBetweenSignAndMagnitudeNumbers 8 128 0 = 0 ↔
        (128 : Nat) = 0 ∨ ((128 : Nat) = 0 ∧ (0 : Nat) = 2 ^ 7) ∨
          ((128 : Nat) = 2 ^ 7 ∧ (0 : Nat) = 0)) :=
  ⟨by decide, by decide, by decide,
    (@distance_zero_iff 8 128 0 (by decide) (by decide) (by decide)).1⟩

end Elements
